import Mathlib

/-!
# Verification of the veryFastRouter request router

Shallow embedding of the Go sources of `emillis/veryFastRouter`.

Modelling conventions:
* Go strings are modelled as `List Char` (`Str`); Go byte 47 is `'/'` and
  byte 58 is `':'`.
* A Go runtime panic (index out of range) is modelled by an `Option`/`GoResult`
  value: `none` / `.panicked` means the operation panics.
* The Go map `staticRoutes` is modelled as an association list with
  overwrite-on-insert, matching map-assignment semantics.
* The fixed array `[bufferSize]string` of `pathDetails` is modelled by the list
  of entries actually written, in write order, together with the write counter;
  a write at an index `≥ bufferSize` is an out-of-range array write.
* Handlers are opaque: a handler value is a `Nat` tag and the Go `nil` handler
  is `Option.none`.
-/

set_option linter.unusedVariables false

namespace veryFastRouter

abbrev Str := List Char

/-- `bufferSize` from the source: maximum number of segments of a request path
buffer (`const bufferSize = 50`). -/
def bufferSize : Nat := 50

/-- The `segment` struct: a path segment string together with its
classification. -/
structure segment where
  value : Str
  isVariable : Bool
  ok : Bool
  deriving DecidableEq, Repr

/-- The `route` struct is in a source file that is absent from the sources;
its fields are reconstructed from its uses in the available sources and the
spec (§3 Route): `originalPattern`, `segments`, `hasVariables`, `methods`,
`handler`.  `handler = none` models a Go `nil` handler. -/
structure route where
  originalPattern : Str
  segments : List segment
  hasVariables : Bool
  methods : List Str
  handler : Option Nat
  deriving DecidableEq, Repr

/-- `pathDetails` struct: the write counter `count` and the written prefix of
the `[bufferSize]string` array, in write order. -/
structure pathDetails where
  count : Nat
  segments : List Str
  deriving DecidableEq, Repr

/-- The `HttpRouter` struct restricted to the routing state (the status-code
handler table is an external collaborator per the spec and does not influence
route lookup). -/
structure HttpRouter where
  staticRoutes : List (Str × route)
  variableRoutes : List route
  deriving DecidableEq, Repr

/-- Outcome of a Go call returning `(T, error)`, with a third case for a
runtime panic. -/
inductive GoResult (α : Type) where
  | ok : α → GoResult α
  | err : Str → GoResult α
  | panicked : GoResult α
  deriving DecidableEq, Repr

/-- True iff the call returned a non-nil error value. -/
def GoResult.isErr {α : Type} : GoResult α → Bool
  | .err _ => true
  | _ => false

/-- Go map read `m[k]`: the association list is keyed uniquely, lookup returns
the entry for `k` if present. -/
def lookupStr (tbl : List (Str × route)) (k : Str) : Option route :=
  match tbl with
  | [] => none
  | (k₁, v) :: rest => if k₁ = k then some v else lookupStr rest k

/-- Go map write `m[k] = v`: overwrite the entry for `k` if present, otherwise
add it. -/
def mapInsert (tbl : List (Str × route)) (k : Str) (v : route) : List (Str × route) :=
  match tbl with
  | [] => [(k, v)]
  | (k₁, v₁) :: rest => if k₁ = k then (k, v) :: rest else (k₁, v₁) :: mapInsert rest k v

/-- Index of the rightmost `'/'` in the string, if any.  Both tokenizers scan
from the last character leftward and act on the first separator found, which
is exactly the rightmost one. -/
def findLastSep : Str → Option Nat
  | [] => none
  | c :: rest =>
    match findLastSep rest with
    | some i => some (i + 1)
    | none => if c = '/' then some 0 else none

theorem findLastSep_lt {p : Str} {i : Nat} (h : findLastSep p = some i) : i < p.length := by
  induction p generalizing i with
  | nil => simp [findLastSep] at h
  | cons c rest ih =>
    simp only [findLastSep] at h
    cases hr : findLastSep rest with
    | some j =>
      rw [hr] at h
      cases h
      simp only [List.length_cons]
      exact Nat.succ_lt_succ (ih hr)
    | none =>
      rw [hr] at h
      by_cases hc : c = '/'
      · simp only [if_pos hc, Option.some.injEq] at h
        simp only [List.length_cons]
        omega
      · simp only [if_neg hc] at h
        exact Option.noConfusion h

/-- `newSegment` from the source: builds a `segment` from a string, reading
the character at index 1 (`seg[1] == 58`).  On a string of length `< 2` the
index access is out of range, modelled as `none`. -/
def newSegment (seg : Str) : Option segment :=
  match seg with
  | c₀ :: c₁ :: rest => some { value := c₀ :: c₁ :: rest, isVariable := c₁ = ':', ok := true }
  | _ => none

/-- Recursion kernel of `splitPath`.  The recursion is on the truncated
prefix `path.take i`, which is strictly shorter than `path`; the explicit
`fuel` argument (instantiated with `path.length`, an upper bound on the
number of iterations) makes the recursion structural, so that the function
reduces inside the kernel.  The `fuel = 0` case is unreachable whenever
`path.length ≤ fuel`. -/
def splitPathAux (fuel : Nat) (path : Str) : Option (List segment) :=
  match fuel with
  | 0 => some []
  | fuel + 1 =>
    match findLastSep path with
    | none => some []
    | some i =>
      match newSegment (path.drop i) with
      | none => none
      | some s =>
        match splitPathAux fuel (path.take i) with
        | none => none
        | some rest => some (s :: rest)

/-- `splitPath` from the source: repeatedly find the rightmost separator, emit
`newSegment` of the suffix from it, truncate, and continue; characters before
the first separator are dropped.  Emission order is rightmost segment first.
A panic inside `newSegment` aborts the whole call (`none`). -/
def splitPath (path : Str) : Option (List segment) :=
  splitPathAux path.length path

/-- Recursion kernel of `splitIntoSegments` (see `splitPathAux`). -/
def splitIntoSegmentsAux (fuel : Nat) (path : Str) : Option (List segment) :=
  match fuel with
  | 0 => some []
  | fuel + 1 =>
    match findLastSep path with
    | none => some []
    | some i =>
      match newSegment (path.drop i) with
      | none => none
      | some s =>
        match splitIntoSegmentsAux fuel (path.take i) with
        | none => none
        | some rest => some (s :: rest)

/-- `splitIntoSegments` from the second source file: textually the same loop
as `splitPath`. -/
def splitIntoSegments (path : Str) : Option (List segment) :=
  splitIntoSegmentsAux path.length path

/-- Recursion kernel of `tokenizeReq` (see `splitPathAux` for the fuel). -/
def tokenizeReqAux (fuel : Nat) (path : Str) (count : Nat) : Option (List Str) :=
  match fuel with
  | 0 => some []
  | fuel + 1 =>
    match findLastSep path with
    | none => some []
    | some i =>
      if count < bufferSize then
        match tokenizeReqAux fuel (path.take i) (count + 1) with
        | none => none
        | some rest => some (path.drop i :: rest)
      else none

/-- The inline tokenization loop of `findRoute`: same traversal as
`splitPath`, but each suffix is written raw into `pd.segments[pd.count]` and
`pd.count` is incremented.  The array has `bufferSize` entries, so a write
with `count ≥ bufferSize` is an out-of-range array write, modelled as `none`;
otherwise the list of written strings is returned in write order. -/
def tokenizeReq (path : Str) (count : Nat) : Option (List Str) :=
  tokenizeReqAux path.length path count

/-- `processPath` from the source: the empty-string and leading-separator
checks are commented out in the code, so the only processing is stripping one
trailing separator when the string is longer than one character.  On the empty
string the read `s[len(s)-1]` is out of range, modelled as `none`. -/
def processPath (s : Str) : Option Str :=
  match s with
  | [] => none
  | _ :: _ => if s.getLast? = some '/' ∧ 1 < s.length then some s.dropLast else some s

/-- `removeTrailingSlash` from the second source file: same body as the live
part of `processPath`. -/
def removeTrailingSlash (s : Str) : Option Str :=
  match s with
  | [] => none
  | _ :: _ => if s.getLast? = some '/' ∧ 1 < s.length then some s.dropLast else some s

/-- `fullPathCheck` from the second source file: the validation that the spec
describes, returning an error for the empty string or a missing leading
separator.  It is present in the sources but never called by `newRoute`. -/
def fullPathCheck (path : Str) : GoResult Str :=
  match path with
  | [] => .err ("path supplied cannot be an empty string".toList)
  | c :: rest =>
    if c ≠ '/' then .err ("path must begin with the separator".toList)
    else
      match removeTrailingSlash (c :: rest) with
      | none => .panicked
      | some p => .ok p

/-- `newRoute` from the source: normalize via `processPath`, tokenize via
`splitPath`, set `hasVariables` iff some segment is variable.  The error
return is always `nil` in the code (the validation is commented out); the
only failure mode is a runtime panic. -/
def newRoute (path : Str) : GoResult route :=
  match processPath path with
  | none => .panicked
  | some p =>
    match splitPath p with
    | none => .panicked
    | some segs =>
      .ok { originalPattern := p
            segments := segs
            hasVariables := segs.any (fun s => s.isVariable)
            methods := []
            handler := none }

/-- `addRoute` from the source: compile the pattern, then insert into
`staticRoutes` keyed by `originalPattern` when it has no variables, otherwise
append to `variableRoutes`. -/
def addRoute (r : HttpRouter) (pattern : Str) : GoResult (route × HttpRouter) :=
  match newRoute pattern with
  | .panicked => .panicked
  | .err e => .err e
  | .ok rt =>
    if !rt.hasVariables then
      .ok (rt, { r with staticRoutes := mapInsert r.staticRoutes rt.originalPattern rt })
    else
      .ok (rt, { r with variableRoutes := r.variableRoutes ++ [rt] })

/-- Modelled from the spec: the `route.compare` method is in the source file
that is absent from the sources (only its call site in `findRoute` is
available).  Per spec §4.4 step 4: segment counts must be equal; then at each
position a variable candidate segment matches any non-empty incoming value
(the incoming segment carries its leading separator, so a non-empty value
means length at least 2), and a literal candidate segment requires exact
string equality of the incoming segment. -/
def compareSegs : List segment → List Str → Bool
  | [], [] => true
  | s :: ss, v :: vs =>
    (if s.isVariable then decide (1 < v.length) else s.value = v) && compareSegs ss vs
  | _, _ => false

/-- Modelled from the spec: top level of `route.compare` (see `compareSegs`):
the candidate's segment count must equal `pd.count`, then all positions must
match. -/
def route.compare (rt : route) (pd : pathDetails) : Bool :=
  if rt.segments.length ≠ pd.count then false
  else compareSegs rt.segments pd.segments

/-- `findRoute` from the source: normalize, try the static table, otherwise
tokenize into the `pathDetails` buffer and scan `variableRoutes` from the
front, returning the first route whose `compare` succeeds.  Outer `none` is a
runtime panic (empty path, or buffer overflow); `some none` means no route
matched. -/
def findRoute (r : HttpRouter) (path : Str) : Option (Option route) :=
  match processPath path with
  | none => none
  | some p =>
    match lookupStr r.staticRoutes p with
    | some rt => some (some rt)
    | none =>
      match tokenizeReq p 0 with
      | none => none
      | some segs =>
        some (r.variableRoutes.find? (fun rt => rt.compare { count := segs.length, segments := segs }))

/-- The method-membership scan of `ServeHTTP`: linear scan of
`route.methods`, set `allowedMethod` on the first equal entry. -/
def methodAllowed (ms : List Str) (m : Str) : Bool :=
  ms.any (fun x => x = m)

/-- Which handler a dispatch invokes. -/
inductive Dispatch where
  | panicked
  | notFound
  | methodNotAllowed (rt : route)
  | handled (rt : route)
  deriving DecidableEq, Repr

/-- `ServeHTTP` from the source, as the choice of invoked handler: the
not-found fallback when `findRoute` returns no route; otherwise the
method-not-allowed fallback when the request method is not in the route's
method list; otherwise the route's own handler. -/
def ServeHTTP (r : HttpRouter) (method : Str) (path : Str) : Dispatch :=
  match findRoute r path with
  | none => .panicked
  | some none => .notFound
  | some (some rt) =>
    if methodAllowed rt.methods method then .handled rt else .methodNotAllowed rt

/-- Mutation through the `*route` pointer that `addRoute` just registered:
the registered copy is the one at key `originalPattern` (static) or the last
appended element (variable), so writing the route's fields updates that
entry. -/
def writeRoute (r : HttpRouter) (rt : route) : HttpRouter :=
  if !rt.hasVariables then
    { r with staticRoutes := mapInsert r.staticRoutes rt.originalPattern rt }
  else
    { r with variableRoutes := r.variableRoutes.dropLast ++ [rt] }

/-- `HandleFunc` from the source: `addRoute`, then assign `route.methods` and
panic if the list is nil or empty, then assign `route.handler` and panic if it
is nil.  The returned `Bool` is `true` iff the call completed without
panicking; on a panic the router state reached so far is returned, since the
panic does not undo the map/slice mutations. -/
def HandleFunc (r : HttpRouter) (pattern : Str) (methods : List Str) (handler : Option Nat) :
    HttpRouter × Bool :=
  match addRoute r pattern with
  | .panicked => (r, false)
  | .err _ => (r, false)
  | .ok (rt, r₁) =>
    if methods.isEmpty then
      (writeRoute r₁ { rt with methods := methods }, false)
    else if handler.isNone then
      (writeRoute (writeRoute r₁ { rt with methods := methods })
        { rt with methods := methods, handler := handler }, false)
    else
      (writeRoute (writeRoute r₁ { rt with methods := methods })
        { rt with methods := methods, handler := handler }, true)

/-- `NewRouter` from the source, restricted to the routing state. -/
def NewRouter : HttpRouter :=
  { staticRoutes := [], variableRoutes := [] }

/-! ## Helper lemmas -/

theorem lookup_mapInsert (tbl : List (Str × route)) (k : Str) (v : route) :
    lookupStr (mapInsert tbl k v) k = some v := by
  induction tbl with
  | nil => simp [mapInsert, lookupStr]
  | cons hd rest ih =>
    obtain ⟨k₁, v₁⟩ := hd
    by_cases hk : k₁ = k
    · simp [mapInsert, lookupStr, hk]
    · simp only [mapInsert, if_neg hk, lookupStr]
      exact ih

theorem findLastSep_none_count {p : Str} (h : findLastSep p = none) : p.count '/' = 0 := by
  induction p with
  | nil => rfl
  | cons c rest ih =>
    simp only [findLastSep] at h
    cases hr : findLastSep rest with
    | some j =>
      rw [hr] at h
      exact Option.noConfusion h
    | none =>
      rw [hr] at h
      by_cases hc : c = '/'
      · rw [if_pos hc] at h
        exact Option.noConfusion h
      · simp [List.count_cons, hc, ih hr]

theorem count_take_sep {p : Str} {i : Nat} (h : findLastSep p = some i) :
    (p.take i).count '/' + 1 = p.count '/' := by
  induction p generalizing i with
  | nil => simp [findLastSep] at h
  | cons c rest ih =>
    simp only [findLastSep] at h
    cases hr : findLastSep rest with
    | some j =>
      rw [hr] at h
      cases h
      simp only [List.take_succ_cons, List.count_cons]
      have := ih hr
      omega
    | none =>
      rw [hr] at h
      by_cases hc : c = '/'
      · rw [if_pos hc] at h
        cases h
        simp [List.count_cons, hc, findLastSep_none_count hr]
      · rw [if_neg hc] at h
        exact Option.noConfusion h

/-- `List.find?` returns the element at the first index satisfying the
predicate. -/
theorem find?_first {α : Type} (P : α → Bool) (l : List α) (j : Nat) (hj : j < l.length)
    (hmatch : P (l.get ⟨j, hj⟩) = true)
    (hbefore : ∀ k (hk : k < j), P (l.get ⟨k, Nat.lt_trans hk hj⟩) = false) :
    l.find? P = some (l.get ⟨j, hj⟩) := by
  induction l generalizing j with
  | nil => exact absurd hj (Nat.not_lt_zero j)
  | cons a l ih =>
    cases j with
    | zero =>
      simp only [List.get] at hmatch
      simp [List.find?, hmatch]
    | succ j =>
      have ha : P a = false := hbefore 0 (Nat.succ_pos j)
      simp only [List.find?, ha]
      simp only [List.get] at hmatch ⊢
      exact ih j (Nat.lt_of_succ_lt_succ hj) hmatch
        (fun k hk => hbefore (k + 1) (Nat.succ_lt_succ hk))

theorem newSegment_value {seg : Str} {s : segment} (h : newSegment seg = some s) :
    s.value = seg := by
  cases seg with
  | nil => exact Option.noConfusion h
  | cons c₀ t =>
    cases t with
    | nil => exact Option.noConfusion h
    | cons c₁ rest =>
      cases h
      rfl

theorem tokenizeReqAux_ok :
    ∀ (fuel : Nat) (p : Str), p.length ≤ fuel → ∀ count, p.count '/' + count ≤ bufferSize →
      ∃ segs, tokenizeReqAux fuel p count = some segs ∧ segs.length = p.count '/' := by
  intro fuel
  induction fuel with
  | zero =>
    intro p hp count hc
    have hnil : p = [] := List.eq_nil_of_length_eq_zero (Nat.le_zero.mp hp)
    subst hnil
    exact ⟨[], rfl, rfl⟩
  | succ fuel ih =>
    intro p hp count hc
    simp only [tokenizeReqAux]
    cases h : findLastSep p with
    | none => exact ⟨[], rfl, (findLastSep_none_count h).symm⟩
    | some i =>
      have hcount := count_take_sep h
      have hb : bufferSize = 50 := rfl
      have hlt : count < bufferSize := by omega
      dsimp only
      rw [if_pos hlt]
      have hi : (p.take i).length ≤ fuel := by
        have := findLastSep_lt h
        simp only [List.length_take]
        omega
      obtain ⟨segs, hs, hl⟩ := ih (p.take i) hi (count + 1) (by omega)
      rw [hs]
      refine ⟨p.drop i :: segs, rfl, ?_⟩
      simp only [List.length_cons, hl]
      omega

theorem tokenizeReqAux_overflow :
    ∀ (fuel : Nat) (p : Str), p.length ≤ fuel → ∀ count,
      1 ≤ p.count '/' → bufferSize < p.count '/' + count →
      tokenizeReqAux fuel p count = none := by
  intro fuel
  induction fuel with
  | zero =>
    intro p hp count h1 h2
    have hnil : p = [] := List.eq_nil_of_length_eq_zero (Nat.le_zero.mp hp)
    subst hnil
    simp [List.count_nil] at h1
  | succ fuel ih =>
    intro p hp count h1 h2
    simp only [tokenizeReqAux]
    cases h : findLastSep p with
    | none =>
      have := findLastSep_none_count h
      omega
    | some i =>
      have hcount := count_take_sep h
      have hb : bufferSize = 50 := rfl
      dsimp only
      by_cases hlt : count < bufferSize
      · rw [if_pos hlt]
        have hi : (p.take i).length ≤ fuel := by
          have := findLastSep_lt h
          simp only [List.length_take]
          omega
        rw [ih (p.take i) hi (count + 1) (by omega) (by omega)]
      · rw [if_neg hlt]

theorem splitIntoSegmentsAux_eq (fuel : Nat) (p : Str) :
    splitIntoSegmentsAux fuel p = splitPathAux fuel p := by
  induction fuel generalizing p with
  | zero => rfl
  | succ fuel ih => simp only [splitIntoSegmentsAux, splitPathAux, ih]

theorem splitPathAux_tokenize :
    ∀ (fuel : Nat) (p : Str) (l : List segment) (count : Nat),
      splitPathAux fuel p = some l → l.length + count ≤ bufferSize →
      tokenizeReqAux fuel p count = some (l.map segment.value) := by
  intro fuel
  induction fuel with
  | zero =>
    intro p l count h hc
    cases h
    rfl
  | succ fuel ih =>
    intro p l count h hc
    simp only [splitPathAux] at h
    simp only [tokenizeReqAux]
    cases hf : findLastSep p with
    | none =>
      rw [hf] at h
      cases h
      rfl
    | some i =>
      rw [hf] at h
      dsimp only at h ⊢
      cases hs : newSegment (p.drop i) with
      | none =>
        rw [hs] at h
        exact Option.noConfusion h
      | some s =>
        rw [hs] at h
        cases hrec : splitPathAux fuel (p.take i) with
        | none =>
          rw [hrec] at h
          exact Option.noConfusion h
        | some rest =>
          rw [hrec] at h
          cases h
          have hb : bufferSize = 50 := rfl
          simp only [List.length_cons] at hc
          have hcount : count < bufferSize := by omega
          rw [if_pos hcount]
          rw [ih (p.take i) rest (count + 1) hrec (by omega)]
          simp [newSegment_value hs]

theorem compareSegs_iff (ss : List segment) (vs : List Str) :
    compareSegs ss vs = true ↔
      ss.length = vs.length ∧
      ∀ i (h1 : i < ss.length) (h2 : i < vs.length),
        if (ss.get ⟨i, h1⟩).isVariable then 1 < (vs.get ⟨i, h2⟩).length
        else (ss.get ⟨i, h1⟩).value = vs.get ⟨i, h2⟩ := by
  induction ss generalizing vs with
  | nil =>
    cases vs with
    | nil => simp [compareSegs]
    | cons v vs =>
      rw [show compareSegs [] (v :: vs) = false from rfl]
      constructor
      · intro h
        exact absurd h (by simp)
      · rintro ⟨h, _⟩
        simp at h
  | cons s ss ih =>
    cases vs with
    | nil =>
      rw [show compareSegs (s :: ss) [] = false from rfl]
      constructor
      · intro h
        exact absurd h (by simp)
      · rintro ⟨h, _⟩
        simp at h
    | cons v vs =>
      simp only [compareSegs, Bool.and_eq_true, ih, List.length_cons]
      constructor
      · rintro ⟨h0, hlen, hall⟩
        refine ⟨by omega, ?_⟩
        intro i h1 h2
        cases i with
        | zero =>
          show if s.isVariable = true then 1 < v.length else s.value = v
          cases hv : s.isVariable with
          | true =>
            rw [hv] at h0
            simpa using h0
          | false =>
            rw [hv] at h0
            simpa using h0
        | succ i =>
          exact hall i (Nat.lt_of_succ_lt_succ h1) (Nat.lt_of_succ_lt_succ h2)
      · rintro ⟨hlen, hall⟩
        have h0 : if s.isVariable = true then 1 < v.length else s.value = v :=
          hall 0 (Nat.succ_pos _) (Nat.succ_pos _)
        refine ⟨?_, by omega, ?_⟩
        · cases hv : s.isVariable with
          | true =>
            rw [hv] at h0
            simpa using h0
          | false =>
            rw [hv] at h0
            simpa using h0
        · intro i h1 h2
          exact hall (i + 1) (Nat.succ_lt_succ h1) (Nat.succ_lt_succ h2)

theorem newRoute_fresh {p : Str} {rt : route} (h : newRoute p = .ok rt) :
    rt.methods = [] ∧ rt.handler = none := by
  unfold newRoute at h
  cases hq : processPath p with
  | none =>
    rw [hq] at h
    exact GoResult.noConfusion h
  | some q =>
    rw [hq] at h
    dsimp only at h
    cases hs : splitPath q with
    | none =>
      rw [hs] at h
      exact GoResult.noConfusion h
    | some segs =>
      rw [hs] at h
      dsimp only at h
      cases h
      exact ⟨rfl, rfl⟩

theorem writeRoute_static {r : HttpRouter} {rt : route} (h : rt.hasVariables = false) :
    writeRoute r rt = { r with staticRoutes := mapInsert r.staticRoutes rt.originalPattern rt } := by
  simp [writeRoute, h]

theorem writeRoute_var {r : HttpRouter} {rt : route} (h : rt.hasVariables = true) :
    writeRoute r rt = { r with variableRoutes := r.variableRoutes.dropLast ++ [rt] } := by
  simp [writeRoute, h]

/-- A route value is present in the router's registry when it sits in the
static table under its own pattern or in the variable-route sequence. -/
def routeRegistered (r : HttpRouter) (rt : route) : Prop :=
  lookupStr r.staticRoutes rt.originalPattern = some rt ∨ rt ∈ r.variableRoutes

/-! ## Concrete routes used by witnesses -/

/-- A literal-only route for the pattern `/a`. -/
def staticA : route :=
  { originalPattern := ['/', 'a']
    segments := [{ value := ['/', 'a'], isVariable := false, ok := true }]
    hasVariables := false
    methods := [['G', 'E', 'T']]
    handler := some 1 }

/-- A one-variable route compiled from the pattern `/:x`. -/
def varX : route :=
  { originalPattern := ['/', ':', 'x']
    segments := [{ value := ['/', ':', 'x'], isVariable := true, ok := true }]
    hasVariables := true
    methods := [['G', 'E', 'T']]
    handler := some 2 }

/-- A second one-variable route, compiled from the pattern `/:y`, which
matches exactly the same paths as `varX`. -/
def varY : route :=
  { originalPattern := ['/', ':', 'y']
    segments := [{ value := ['/', ':', 'y'], isVariable := true, ok := true }]
    hasVariables := true
    methods := [['G', 'E', 'T']]
    handler := some 3 }

/-- The route `newRoute` compiles from the pattern `/:x`, before methods and
handler are attached. -/
def varXFresh : route :=
  { originalPattern := ['/', ':', 'x']
    segments := [{ value := ['/', ':', 'x'], isVariable := true, ok := true }]
    hasVariables := true
    methods := []
    handler := none }

/-! ## Claim theorems -/

/-- C1: for every router state and every request path, if the normalized path
is a key of the static-route table, `findRoute` returns that static route, and
the result does not depend on the variable-route sequence at all (the theorem
holds for every `vrs`): a static route always wins over any variable route
that could match the same path, regardless of registration order. -/
theorem static_route_priority (sr : List (Str × route)) (vrs : List route)
    (path p : Str) (rt : route)
    (h1 : processPath path = some p) (h2 : lookupStr sr p = some rt) :
    findRoute ⟨sr, vrs⟩ path = some (some rt) := by
  simp only [findRoute, h1, h2]

theorem static_route_priority_witness :
    findRoute ⟨[(['/', 'a'], staticA)], [varX]⟩ ['/', 'a'] = some (some staticA) :=
  static_route_priority [(['/', 'a'], staticA)] [varX] ['/', 'a'] ['/', 'a'] staticA
    (by decide) (by decide)

/-- C2: a variable route matches an incoming path (as a `pathDetails` record,
whose stored segment list has length `count`) iff the segment counts are equal
and, at every position, a variable candidate segment accepts any incoming
segment with a non-empty value (length at least 2, counting the leading
separator) while a literal candidate segment requires exact string equality;
in particular a differing segment count never matches. -/
theorem compare_characterization (rt : route) (pd : pathDetails)
    (hpd : pd.segments.length = pd.count) :
    (rt.compare pd = true ↔
      rt.segments.length = pd.count ∧
      ∀ i (h1 : i < rt.segments.length) (h2 : i < pd.segments.length),
        if (rt.segments.get ⟨i, h1⟩).isVariable then 1 < (pd.segments.get ⟨i, h2⟩).length
        else (rt.segments.get ⟨i, h1⟩).value = pd.segments.get ⟨i, h2⟩) ∧
    (rt.segments.length ≠ pd.count → rt.compare pd = false) := by
  constructor
  · unfold route.compare
    by_cases hlen : rt.segments.length = pd.count
    · rw [if_neg (by omega)]
      rw [compareSegs_iff]
      constructor
      · rintro ⟨_, hall⟩
        exact ⟨hlen, hall⟩
      · rintro ⟨_, hall⟩
        exact ⟨by omega, hall⟩
    · rw [if_pos (by omega)]
      constructor
      · intro hfalse
        exact absurd hfalse (by simp)
      · rintro ⟨hcount, _⟩
        exact absurd hcount hlen
  · intro hne
    unfold route.compare
    rw [if_pos (by omega)]

theorem compare_characterization_witness :
    varX.compare { count := 1, segments := [['/', 'b']] } = true :=
  ((compare_characterization varX _ (by decide)).1).2 (by decide)

/-- C3: `addRoute` appends a compiled variable route at the end of
`variableRoutes`, preserving registration order, and `findRoute` (when the
static table misses) scans that sequence from the front and returns the route
at the first index whose `compare` succeeds — the earliest-registered match
wins even when a later-registered route also matches. -/
theorem variable_first_registered_wins
    (r : HttpRouter) (pattern : Str) (rt : route)
    (sr : List (Str × route)) (vrs : List route) (path p : Str) (segs : List Str)
    (j : Nat) (hj : j < vrs.length)
    (hnew : newRoute pattern = .ok rt) (hvar : rt.hasVariables = true)
    (h1 : processPath path = some p) (h2 : lookupStr sr p = none)
    (h3 : tokenizeReq p 0 = some segs)
    (h4 : (vrs.get ⟨j, hj⟩).compare { count := segs.length, segments := segs } = true)
    (h5 : ∀ k (hk : k < j),
      (vrs.get ⟨k, Nat.lt_trans hk hj⟩).compare { count := segs.length, segments := segs } = false) :
    addRoute r pattern = .ok (rt, { r with variableRoutes := r.variableRoutes ++ [rt] }) ∧
    findRoute ⟨sr, vrs⟩ path = some (some (vrs.get ⟨j, hj⟩)) := by
  constructor
  · simp [addRoute, hnew, hvar]
  · simp only [findRoute, h1, h2, h3]
    rw [find?_first (fun rt => rt.compare { count := segs.length, segments := segs }) vrs j hj
      h4 h5]

theorem variable_first_registered_wins_witness :
    addRoute NewRouter ['/', ':', 'x'] =
      .ok (varXFresh, { staticRoutes := [], variableRoutes := [varXFresh] }) ∧
    findRoute ⟨[], [varX, varY]⟩ ['/', 'b'] = some (some varX) := by
  have h := variable_first_registered_wins NewRouter ['/', ':', 'x'] varXFresh
    [] [varX, varY] ['/', 'b'] ['/', 'b'] [['/', 'b']] 0 (by decide)
    (by decide) (by decide) (by decide) (by decide) (by decide) (by decide)
    (fun k hk => absurd hk (Nat.not_lt_zero k))
  exact h

/-- C4: for every request, dispatch invokes exactly one of three handlers:
the not-found fallback iff `findRoute` produced no route, the
method-not-allowed fallback iff a route was found but the request method is
not a member of its method list, and the route's own handler iff a route was
found and the method is a member. -/
theorem serveHTTP_trichotomy (r : HttpRouter) (method path : Str) (res : Option route)
    (h : findRoute r path = some res) :
    (ServeHTTP r method path = .notFound ↔ res = none) ∧
    (∀ rt, ServeHTTP r method path = .methodNotAllowed rt ↔
      res = some rt ∧ methodAllowed rt.methods method = false) ∧
    (∀ rt, ServeHTTP r method path = .handled rt ↔
      res = some rt ∧ methodAllowed rt.methods method = true) := by
  simp only [ServeHTTP, h]
  cases res with
  | none =>
    refine ⟨by simp, fun rt => by simp, fun rt => by simp⟩
  | some rt0 =>
    dsimp only
    by_cases hm : methodAllowed rt0.methods method = true
    · rw [if_pos hm]
      refine ⟨by simp, fun rt => ?_, fun rt => ?_⟩
      · constructor
        · intro hcon
          exact absurd hcon (by simp)
        · rintro ⟨heq, hmm⟩
          injection heq with heq2
          subst heq2
          rw [hm] at hmm
          exact absurd hmm (by simp)
      · constructor
        · intro hcon
          injection hcon with heq2
          subst heq2
          exact ⟨rfl, hm⟩
        · rintro ⟨heq, _⟩
          injection heq with heq2
          rw [heq2]
    · rw [if_neg hm]
      rw [Bool.not_eq_true] at hm
      refine ⟨by simp, fun rt => ?_, fun rt => ?_⟩
      · constructor
        · intro hcon
          injection hcon with heq2
          subst heq2
          exact ⟨rfl, hm⟩
        · rintro ⟨heq, _⟩
          injection heq with heq2
          rw [heq2]
      · constructor
        · intro hcon
          exact absurd hcon (by simp)
        · rintro ⟨heq, hmm⟩
          injection heq with heq2
          subst heq2
          rw [hm] at hmm
          exact absurd hmm (by simp)

theorem serveHTTP_trichotomy_witness :
    ServeHTTP ⟨[], []⟩ ['G', 'E', 'T'] ['/', 'x'] = .notFound :=
  (serveHTTP_trichotomy ⟨[], []⟩ ['G', 'E', 'T'] ['/', 'x'] none (by decide)).1.mpr rfl

/-- C5 (documenting the code bug): `newRoute` never returns an error value
for any pattern — the validation the spec describes is commented out in
`processPath`, and the validator `fullPathCheck` that does produce those
errors is never called by `newRoute`.  A pattern without a leading separator
(`abc`) is accepted and compiled into a (static) route with a `nil` error,
even though `fullPathCheck` would have rejected it; the empty pattern causes
an index-out-of-range panic rather than a validation error. -/
theorem newRoute_never_returns_error :
    (∀ p : Str, (newRoute p).isErr = false) ∧
    newRoute [] = .panicked ∧
    newRoute ['a', 'b', 'c'] =
      .ok { originalPattern := ['a', 'b', 'c']
            segments := []
            hasVariables := false
            methods := []
            handler := none } ∧
    (fullPathCheck ['a', 'b', 'c']).isErr = true := by
  refine ⟨?_, rfl, by decide, rfl⟩
  intro p
  unfold newRoute
  cases processPath p with
  | none => rfl
  | some q =>
    dsimp only
    cases splitPath q with
    | none => rfl
    | some segs => rfl

/-- C6: `newSegment` classifies by the character at index 1: for every
segment string of at least 2 characters the access is in bounds, the stored
value is the segment itself, and `isVariable` holds iff that character is
`:`; for the bare separator segment of length 1 the access is out of range (a
runtime panic), and consequently tokenizing the root pattern `/` panics. -/
theorem newSegment_index_one (seg : Str) (h : 2 ≤ seg.length) :
    (∃ s, newSegment seg = some s ∧ s.value = seg ∧
      (s.isVariable = true ↔ seg.get ⟨1, by omega⟩ = ':')) ∧
    newSegment ['/'] = none ∧ splitPath ['/'] = none := by
  refine ⟨?_, rfl, rfl⟩
  cases seg with
  | nil => simp at h
  | cons c₀ t =>
    cases t with
    | nil => simp at h
    | cons c₁ rest =>
      refine ⟨_, rfl, rfl, ?_⟩
      show decide (c₁ = ':') = true ↔ c₁ = ':'
      exact decide_eq_true_iff

theorem newSegment_index_one_witness :
    ∃ s, newSegment ['/', ':'] = some s ∧ s.value = ['/', ':'] ∧
      (s.isVariable = true ↔ (['/', ':'] : Str).get ⟨1, by decide⟩ = ':') :=
  (newSegment_index_one ['/', ':'] (by decide)).1

/-- C7: request-time tokenization writes one buffer entry per separator of
the normalized path into the fixed `bufferSize = 50` entry array: when the
path has at most 50 separators every write is in bounds and all segments are
stored; with more than 50 separators the loop attempts a write past the end
of the buffer (modelled `none`), a condition the code does not handle. -/
theorem tokenize_buffer_bound (p : Str) :
    (p.count '/' ≤ bufferSize →
      ∃ segs, tokenizeReq p 0 = some segs ∧ segs.length = p.count '/') ∧
    (bufferSize < p.count '/' → tokenizeReq p 0 = none) := by
  have hb : bufferSize = 50 := rfl
  constructor
  · intro h
    exact tokenizeReqAux_ok p.length p (Nat.le_refl _) 0 (by omega)
  · intro h
    exact tokenizeReqAux_overflow p.length p (Nat.le_refl _) 0 (by omega) (by omega)

theorem tokenize_buffer_bound_witness :
    tokenizeReq (List.replicate 51 '/') 0 = none :=
  (tokenize_buffer_bound (List.replicate 51 '/')).2 (by decide)

/-- C8: matching is insensitive to a single trailing separator: for every
non-root, non-empty path that does not already end in the separator,
`findRoute` on the path with a trailing `/` appended equals `findRoute` on
the path itself, for every router state; the root path `/` is exempt and is
left unchanged by normalization. -/
theorem trailing_slash_insensitive (r : HttpRouter) (p : Str)
    (hne : p ≠ []) (hlast : p.getLast? ≠ some '/') :
    findRoute r (p ++ ['/']) = findRoute r p ∧ processPath ['/'] = some ['/'] := by
  refine ⟨?_, rfl⟩
  obtain ⟨c, t, rfl⟩ : ∃ c t, p = c :: t := by
    cases p with
    | nil => exact absurd rfl hne
    | cons c t => exact ⟨c, t, rfl⟩
  have h1 : processPath ((c :: t) ++ ['/']) = some (c :: t) := by
    simp only [List.cons_append, processPath]
    rw [if_pos]
    · rw [← List.cons_append, List.dropLast_concat]
    · constructor
      · rw [← List.cons_append, List.getLast?_concat]
      · simp
  have h2 : processPath (c :: t) = some (c :: t) := by
    simp only [processPath]
    rw [if_neg]
    intro hcon
    exact hlast hcon.1
  simp only [findRoute, h1, h2]

theorem trailing_slash_insensitive_witness :
    findRoute ⟨[(['/', 'a'], staticA)], []⟩ (['/', 'a'] ++ ['/']) =
      findRoute ⟨[(['/', 'a'], staticA)], []⟩ ['/', 'a'] ∧
    processPath ['/'] = some ['/'] :=
  trailing_slash_insensitive ⟨[(['/', 'a'], staticA)], []⟩ ['/', 'a']
    (by decide) (by decide)

/-- C9 counterexample: the claim fails at the normalized root path `/`: the
pattern tokenizer `splitPath` (and `splitIntoSegments`) panics inside
`newSegment` on the bare separator segment, while the request-time loop in
`findRoute` succeeds and emits the single segment `/`, so the three
tokenizations do not emit the same segments for every normalized path. -/
theorem tokenizers_disagree_at_root :
    processPath ['/'] = some ['/'] ∧ splitPath ['/'] = none ∧
    splitIntoSegments ['/'] = none ∧ tokenizeReq ['/'] 0 = some [['/']] := by
  refine ⟨rfl, rfl, rfl, rfl⟩

/-- C9 (amended): `splitIntoSegments` coincides with `splitPath` on every
path; and on every path where pattern tokenization succeeds (that is, no
bare-separator segment makes `newSegment` panic) and which fits the request
buffer, the request-time loop of `findRoute` emits exactly the same segment
strings in the same reverse-traversal order, position for position. -/
theorem tokenizers_equivalent (p : Str) (l : List segment)
    (h : splitPath p = some l) (hlen : l.length ≤ bufferSize) :
    splitIntoSegments p = splitPath p ∧
    tokenizeReq p 0 = some (l.map segment.value) := by
  constructor
  · exact splitIntoSegmentsAux_eq p.length p
  · exact splitPathAux_tokenize p.length p l 0 h (by omega)

theorem tokenizers_equivalent_witness :
    splitIntoSegments ['/', 'a', '/', 'b'] = splitPath ['/', 'a', '/', 'b'] ∧
    tokenizeReq ['/', 'a', '/', 'b'] 0 =
      some (([{ value := ['/', 'b'], isVariable := false, ok := true },
              { value := ['/', 'a'], isVariable := false, ok := true }] :
        List segment).map segment.value) :=
  tokenizers_equivalent ['/', 'a', '/', 'b']
    [{ value := ['/', 'b'], isVariable := false, ok := true },
     { value := ['/', 'a'], isVariable := false, ok := true }]
    (by decide) (by decide)

/-- C10: registration is not atomic on failure: for a pattern that compiles,
but an empty (nil) methods list or a nil handler, `HandleFunc` panics
(completes with `false`) only after the compiled route has been inserted into
the registry through `addRoute` and the `*route` pointer writes, so the
incomplete route — its handler still nil — remains registered. -/
theorem handleFunc_not_atomic (r : HttpRouter) (pattern : Str) (methods : List Str)
    (handler : Option Nat) (rt : route)
    (hnew : newRoute pattern = .ok rt)
    (hbad : methods = [] ∨ handler = none) :
    (HandleFunc r pattern methods handler).2 = false ∧
    ∃ rt2, routeRegistered (HandleFunc r pattern methods handler).1 rt2 ∧
      rt2.originalPattern = rt.originalPattern ∧ rt2.handler = none := by
  obtain ⟨hm0, hh0⟩ := newRoute_fresh hnew
  cases hv : rt.hasVariables with
  | false =>
    have haddr : addRoute r pattern =
        .ok (rt, { r with staticRoutes := mapInsert r.staticRoutes rt.originalPattern rt }) := by
      simp [addRoute, hnew, hv]
    by_cases hme : methods.isEmpty = true
    · have hmeq : methods = [] := by
        cases methods with
        | nil => rfl
        | cons a t => simp at hme
      subst hmeq
      have hres : HandleFunc r pattern [] handler =
          ({ r with staticRoutes :=
              (mapInsert (mapInsert r.staticRoutes rt.originalPattern rt) rt.originalPattern
                { rt with methods := ([] : List Str) }) }, false) := by
        simp only [HandleFunc, haddr]
        rw [if_pos (show ([] : List Str).isEmpty = true from rfl)]
        rw [writeRoute_static (show ({ rt with methods := ([] : List Str) } : route).hasVariables = false from hv)]
      refine ⟨by rw [hres], ⟨{ rt with methods := [] }, ?_, rfl, hh0⟩⟩
      rw [hres]
      exact Or.inl (lookup_mapInsert _ _ _)
    · have hh : handler = none := by
        rcases hbad with hm | hh
        · subst hm
          simp at hme
        · exact hh
      subst hh
      have hres : HandleFunc r pattern methods none =
          ({ r with staticRoutes :=
              (mapInsert
                (mapInsert (mapInsert r.staticRoutes rt.originalPattern rt) rt.originalPattern
                  { rt with methods := methods })
                rt.originalPattern { rt with methods := methods, handler := none }) }, false) := by
        simp only [HandleFunc, haddr]
        rw [if_neg hme]
        rw [if_pos (show (none : Option Nat).isNone = true from rfl)]
        rw [writeRoute_static (show ({ rt with methods := methods } : route).hasVariables = false from hv)]
        rw [writeRoute_static (show ({ rt with methods := methods, handler := (none : Option Nat) } : route).hasVariables = false from hv)]
      refine ⟨by rw [hres], ⟨{ rt with methods := methods, handler := none }, ?_, rfl, rfl⟩⟩
      rw [hres]
      exact Or.inl (lookup_mapInsert _ _ _)
  | true =>
    have haddr : addRoute r pattern =
        .ok (rt, { r with variableRoutes := r.variableRoutes ++ [rt] }) := by
      simp [addRoute, hnew, hv]
    by_cases hme : methods.isEmpty = true
    · have hmeq : methods = [] := by
        cases methods with
        | nil => rfl
        | cons a t => simp at hme
      subst hmeq
      have hres : HandleFunc r pattern [] handler =
          ({ r with variableRoutes :=
              (r.variableRoutes ++ [{ rt with methods := ([] : List Str) }]) }, false) := by
        simp only [HandleFunc, haddr]
        rw [if_pos (show ([] : List Str).isEmpty = true from rfl)]
        rw [writeRoute_var (show ({ rt with methods := ([] : List Str) } : route).hasVariables = true from hv)]
        rw [show ({ r with variableRoutes := r.variableRoutes ++ [rt] } : HttpRouter).variableRoutes
            = r.variableRoutes ++ [rt] from rfl]
        rw [List.dropLast_concat]
      refine ⟨by rw [hres], ⟨{ rt with methods := [] }, ?_, rfl, hh0⟩⟩
      rw [hres]
      exact Or.inr (by simp)
    · have hh : handler = none := by
        rcases hbad with hm | hh
        · subst hm
          simp at hme
        · exact hh
      subst hh
      have hres : HandleFunc r pattern methods none =
          ({ r with variableRoutes :=
              (r.variableRoutes ++ [{ rt with methods := methods, handler := none }]) }, false) := by
        simp only [HandleFunc, haddr]
        rw [if_neg hme]
        rw [if_pos (show (none : Option Nat).isNone = true from rfl)]
        rw [writeRoute_var (show ({ rt with methods := methods } : route).hasVariables = true from hv)]
        rw [show ({ r with variableRoutes := r.variableRoutes ++ [rt] } : HttpRouter).variableRoutes
            = r.variableRoutes ++ [rt] from rfl]
        rw [List.dropLast_concat]
        rw [writeRoute_var (show ({ rt with methods := methods, handler := (none : Option Nat) } : route).hasVariables = true from hv)]
        rw [show ({ r with variableRoutes := r.variableRoutes ++ [{ rt with methods := methods }] } : HttpRouter).variableRoutes
            = r.variableRoutes ++ [{ rt with methods := methods }] from rfl]
        rw [List.dropLast_concat]
      refine ⟨by rw [hres], ⟨{ rt with methods := methods, handler := none }, ?_, rfl, rfl⟩⟩
      rw [hres]
      exact Or.inr (by simp)

theorem handleFunc_not_atomic_witness :
    (HandleFunc NewRouter ['/', ':', 'x'] [] (some 1)).2 = false ∧
    ∃ rt2, routeRegistered (HandleFunc NewRouter ['/', ':', 'x'] [] (some 1)).1 rt2 ∧
      rt2.originalPattern = varXFresh.originalPattern ∧ rt2.handler = none :=
  handleFunc_not_atomic NewRouter ['/', ':', 'x'] [] (some 1) varXFresh
    (by decide) (Or.inl rfl)

end veryFastRouter
